import Mathlib

/-!
Graph Works: formal model and verification

A shallow embedding of the combinatorial and graph-algorithmic core of
`graph_works.cpp` (Graph Works, version 0.2.0):

* the `WeightedEdge` / edge-list graph model and `create_graph`
  (matrix scan, lines 297-324 of the source);
* Prim's boundary search `min_incident` (lines 333-370) and the
  spanning-tree loop of `spanning_tree` (lines 186-203);
* the reverse-colexicographic combination enumerator `make_combinations`
  (lines 380-443) and its graph-generation twin `make_graphs`
  (lines 452-521);
* the adjacency-matrix writer `write_graph` (lines 547-598).

C `int` values are modelled as `ℤ` where weights and vertices flow through
the algorithms, and as `ℕ` for loop counters and array indices.  C arrays
are modelled as functions `ℕ → ℕ` (the enumerator state) or `List`s; an
out-of-bounds C array access has no defined value, so each such read site
is modelled with an explicit default (or an explicit garbage oracle where
a claim is about the out-of-bounds behaviour itself), and the proofs
establish that in-contract runs never depend on those defaults.

Loops are modelled by structural recursion on an explicit fuel argument
so that every definition evaluates by `rfl`/`decide`; the theorems hold
for every sufficiently large fuel.
-/

namespace GraphWorks

/-- The `WeightedEdge` class (source lines 37-56): two vertex identifiers
`u`, `v` and a weight `w`, all C `int`s.  `u` is set from the column index
and `v` from the row index by `create_graph`. -/
structure WeightedEdge where
  u : ℤ
  v : ℤ
  w : ℤ
  deriving DecidableEq, Repr

/-- Indexing `G[i]` on the edge vector.  C++ `vector::operator[]` is undefined out
of range; the default edge stands for that unspecified value, and every
use in the claims below is shown (or checked concretely) to be in range. -/
def getEdge (G : List WeightedEdge) (i : ℕ) : WeightedEdge :=
  G.getD i ⟨0, 0, 0⟩

/-- The function `create_graph` (source lines 297-324): scan the `V × V` matrix read
from the input file, row index `j` in the outer loop, column index `i` in
the inner loop, and push `WeightedEdge(i, j, k)` for every entry with
`i >= j` and value `k != 0`.  The matrix is modelled as the function `M`
sending (row, column) to the token read there. -/
def create_graph (V : ℕ) (M : ℕ → ℕ → ℤ) : List WeightedEdge :=
  (List.range V).flatMap (fun j =>
    (List.range V).filterMap (fun i =>
      if j ≤ i ∧ M j i ≠ 0 then some ⟨(i : ℤ), (j : ℤ), M j i⟩ else none))

/-- The inner scan of `min_incident` over `vT` (source lines 350-354):
`uMatch`/`vMatch` end up true exactly when the vertex occurs in `vT`. -/
def vtMem (x : ℤ) (vT : List ℤ) : Bool :=
  decide (x ∈ vT)

/-- The constant `numeric_limits<int>::max()`, the initial value of `minWeight`
(source line 341). -/
def intMax : ℤ := 2147483647

/-- The mutable locals of `min_incident` (source lines 335-337). -/
structure MinAcc where
  minIndex : ℕ
  minWeight : ℤ
  result_uMatch : Bool
  deriving DecidableEq, Repr

/-- The `for i` search loop of `min_incident` (source lines 344-363),
fuelled structural recursion over the index `i`; `fuel = G.length` always
suffices. -/
def min_incident_loop (G : List WeightedEdge) (vT : List ℤ) :
    ℕ → ℕ → MinAcc → MinAcc
  | 0, _, acc => acc
  | fuel + 1, i, acc =>
    if i < G.length then
      let e := getEdge G i
      let uMatch := vtMem e.u vT
      let vMatch := vtMem e.v vT
      let acc1 :=
        if uMatch.toNat + vMatch.toNat = 1 ∧ e.w < acc.minWeight then
          ⟨i, e.w, uMatch⟩
        else acc
      min_incident_loop G vT fuel (i + 1) acc1
    else acc

/-- The function `min_incident` (source lines 333-370): returns the selected index and
the updated frontier `vT` (the function appends
`result_uMatch ? G[minIndex].getV() : G[minIndex].getU()`). -/
def min_incident (G : List WeightedEdge) (vT : List ℤ) : ℕ × List ℤ :=
  let acc := min_incident_loop G vT G.length 0 ⟨0, intMax, false⟩
  (acc.minIndex,
    vT ++ [if acc.result_uMatch then (getEdge G acc.minIndex).v
           else (getEdge G acc.minIndex).u])

/-- The mutable state of the Prim loop in `spanning_tree`
(source lines 162-203): the frontier `vT`, the tree `T` and the running
`totalWeight`. -/
structure PrimState where
  vT : List ℤ
  T : List WeightedEdge
  total : ℤ
  deriving DecidableEq, Repr

/-- One iteration of the `do { ... }` body (source lines 192-203). -/
def primStep (G : List WeightedEdge) (s : PrimState) : PrimState :=
  let r := min_incident G s.vT
  ⟨r.2, s.T ++ [getEdge G r.1], s.total + (getEdge G r.1).w⟩

/-- The `do { ... } while (T.size() < vertexCount-1)` loop
(source lines 192-203), fuelled; each iteration appends one edge, so
`fuel = V` always suffices. -/
def primRun (G : List WeightedEdge) (V : ℕ) : ℕ → PrimState → PrimState
  | 0, s => s
  | fuel + 1, s =>
    let s1 := primStep G s
    if s1.T.length < V - 1 then primRun G V fuel s1 else s1

/-- The function `spanning_tree` (source lines 160-214) without its I/O: build `G`
with `create_graph`, seed the frontier with `G[0].getU()` and run the
Prim loop. -/
def spanning_tree (V : ℕ) (M : ℕ → ℕ → ℤ) (fuel : ℕ) : PrimState :=
  let G := create_graph V M
  primRun G V fuel ⟨[(getEdge G 0).u], [], 0⟩

/-- The function `triangle_number` (source lines 606-609). -/
def triangle_number (k : ℕ) : ℕ :=
  k * (k + 1) / 2

/-! ## The combination enumerator

`make_combinations` (source lines 380-443) mutates a C array
`int indices[combination_count]` and a cursor `k`.  The array is modelled
as a function `idx : ℕ → ℕ`; cells at positions `≥ combination_count` do
not exist in C (reading them is undefined), and the theorems below show
that in-contract runs never depend on such positions.

The loop body is flattened into the observable-step function `comboNext`:
every iteration of the inner `while (indices[k] != k)` loop and every pass
through the bottom of the outer `do`-loop prints exactly one combination,
so one `comboNext` call performs exactly the work between two consecutive
`print_permu` calls.  `none` means the loop stops without printing (the
`combination_count == 1` break); `some (e, none)` means `e` is printed and
the outer `while` condition then fails; `some (e, some s)` means `e` is
printed and the loop continues in state `s`. -/

/-- The initialisation loop (source lines 394-397):
`indices[combination_count-1-i] = input_count-i-1`, i.e. cell `j` holds
`n - m + j`. -/
def initIdx (n m : ℕ) : ℕ → ℕ := fun j => n - m + j

/-- The print function `print_permu` (source lines 529-538): the printed combination is the
content of cells `0 .. m-1`. -/
def emitC (m : ℕ) (idx : ℕ → ℕ) : List ℕ := (List.range m).map idx

/-- The cursor scan `do { k++; } while (indices[k] == k && k != m);`
(source lines 417-420), fuelled.  The scan stops at the first position
`> k` that is not at its home value, or at `m`; `fuel = m - k` suffices
(the entry at position `m` is read by the C code but cannot affect the
result, because `k != m` fails there). -/
def scanNextAux (idx : ℕ → ℕ) (m : ℕ) : ℕ → ℕ → ℕ
  | 0, k => k + 1
  | fuel + 1, k =>
    if idx (k + 1) = k + 1 ∧ k + 1 ≠ m then scanNextAux idx m fuel (k + 1)
    else k + 1

/-- The cursor scan with its canonical fuel. -/
def scanNext (idx : ℕ → ℕ) (m k : ℕ) : ℕ := scanNextAux idx m (m - k) k

/-- One observable step of the permutation loop of `make_combinations`
(source lines 402-440); see the section comment for the correspondence. -/
def comboNext (m : ℕ) (idx : ℕ → ℕ) (k : ℕ) :
    Option (List ℕ × Option ((ℕ → ℕ) × ℕ)) :=
  if idx k ≠ k then
    -- while (indices[k] != k) { indices[k]--; print_permu(...); }
    let idx1 : ℕ → ℕ := fun i => if i = k then idx k - 1 else idx i
    some (emitC m idx1, some (idx1, k))
  else if m = 1 then none
    -- if (combination_count == 1) break;
  else
    -- do { k++; } while (indices[k] == k && k != combination_count);
    let k1 := scanNext idx m k
    -- indices[k]--;
    let idx1 : ℕ → ℕ := fun i => if i = k1 then idx k1 - 1 else idx i
    if idx1 k1 ≠ k1 then
      -- for (i < k) indices[i] = indices[k]-(k-i);  k = 0;
      let idx2 : ℕ → ℕ := fun i => if i < k1 then idx1 k1 - (k1 - i) else idx1 i
      -- print, then the do-while condition (k != m-1 || indices[k] != k)
      if 0 ≠ m - 1 ∨ idx2 0 ≠ 0 then some (emitC m idx2, some (idx2, 0))
      else some (emitC m idx2, none)
    else
      if k1 ≠ m - 1 ∨ idx1 k1 ≠ k1 then some (emitC m idx1, some (idx1, k1))
      else some (emitC m idx1, none)

/-- Runs an observable-step function, collecting the printed
combinations; shared by `make_combinations` and `make_graphs`. -/
def loopRun (next : (ℕ → ℕ) → ℕ → Option (List ℕ × Option ((ℕ → ℕ) × ℕ))) :
    ℕ → ((ℕ → ℕ) × ℕ) → List (List ℕ)
  | 0, _ => []
  | fuel + 1, s =>
    match next s.1 s.2 with
    | none => []
    | some (e, none) => [e]
    | some (e, some s1) => e :: loopRun next fuel s1

/-- The permutation loop of `make_combinations`. -/
def comboRun (m : ℕ) : ℕ → ((ℕ → ℕ) × ℕ) → List (List ℕ) :=
  loopRun (comboNext m)

/-- The function `make_combinations` (source lines 380-443): `none` models the
`input_count <= combination_count` error report (nothing is printed);
otherwise the result is the list of printed combinations, the initial
one first.  The fuel bounds the number of loop iterations; every theorem
below holds for all sufficiently large fuel. -/
def make_combinations (input_count combination_count : ℕ) (fuel : ℕ) :
    Option (List (List ℕ)) :=
  if input_count ≤ combination_count then none
  else
    some (emitC combination_count (initIdx input_count combination_count) ::
      comboRun combination_count fuel (initIdx input_count combination_count, 0))

/-- One observable step of the permutation loop of `make_graphs`
(source lines 480-516).  Identical to `comboNext` except that the inner
while-guard is `ordinals[k] > k` (line 483) instead of `indices[k] != k`
(line 405), and each print is a `write_graph` call. -/
def graphsNext (m : ℕ) (idx : ℕ → ℕ) (k : ℕ) :
    Option (List ℕ × Option ((ℕ → ℕ) × ℕ)) :=
  if k < idx k then
    let idx1 : ℕ → ℕ := fun i => if i = k then idx k - 1 else idx i
    some (emitC m idx1, some (idx1, k))
  else if m = 1 then none
  else
    let k1 := scanNext idx m k
    let idx1 : ℕ → ℕ := fun i => if i = k1 then idx k1 - 1 else idx i
    if idx1 k1 ≠ k1 then
      let idx2 : ℕ → ℕ := fun i => if i < k1 then idx1 k1 - (k1 - i) else idx1 i
      if 0 ≠ m - 1 ∨ idx2 0 ≠ 0 then some (emitC m idx2, some (idx2, 0))
      else some (emitC m idx2, none)
    else
      if k1 ≠ m - 1 ∨ idx1 k1 ≠ k1 then some (emitC m idx1, some (idx1, k1))
      else some (emitC m idx1, none)

/-- The permutation loop of `make_graphs`. -/
def graphsRun (m : ℕ) : ℕ → ((ℕ → ℕ) × ℕ) → List (List ℕ) :=
  loopRun (graphsNext m)

/-- The function `make_graphs` (source lines 452-521): `none` models the
`maxEdgeCount < EDGE_COUNT` error report; otherwise the result is the
list of ordinal arrays passed to `write_graph`, in order, including the
initial one and the `maxEdgeCount == EDGE_COUNT` single-shot case
(source line 477). -/
def make_graphs (VERTEX_COUNT EDGE_COUNT : ℕ) (fuel : ℕ) :
    Option (List (List ℕ)) :=
  let maxEdgeCount := triangle_number (VERTEX_COUNT - 1)
  if maxEdgeCount < EDGE_COUNT then none
  else
    let idx0 := initIdx maxEdgeCount EDGE_COUNT
    if maxEdgeCount = EDGE_COUNT then some [emitC EDGE_COUNT idx0]
    else some (emitC EDGE_COUNT idx0 :: graphsRun EDGE_COUNT fuel (idx0, 0))

/-! ## The adjacency-matrix writer `write_graph`

`write_graph` (source lines 547-598) receives `const int indices[]` of
length `EDGE_COUNT` (the array allocated in `make_graphs`).  Its edge-set
loop (lines 557-561) reads `indices[k]` for a cursor `k` that the code
never bounds, so `k` can run past `EDGE_COUNT`; a C read of
`indices[EDGE_COUNT]` is out of bounds and yields an unspecified value.
The model makes that explicit: reads are `indices.getD k (g k)` where the
oracle `g` supplies the unspecified value of any out-of-bounds cell. -/

/-- The edge-set initialisation loop (source lines 557-561):
`for (i = 0, k = 0; i < EDGES; i++) { edgeSet[i] = (i == indices[k]);
if (i == indices[k]) k++; }`, fuelled by the remaining iteration count. -/
def edgeSetAux (indices : List ℕ) (g : ℕ → ℕ) : ℕ → ℕ → ℕ → List Bool
  | 0, _, _ => []
  | fuel + 1, i, k =>
    let r := indices.getD k (g k)
    decide (i = r) :: edgeSetAux indices g fuel (i + 1) (if i = r then k + 1 else k)

/-- The computed `edgeSet` array of `write_graph`. -/
def edgeSet (indices : List ℕ) (g : ℕ → ℕ) (EDGES : ℕ) : List Bool :=
  edgeSetAux indices g EDGES 0 0

/-- The value of the cursor `k` of the edge-set loop at the start of
iteration `i` (both reads of `indices[k]` in the body use this value). -/
def edgeSetK (indices : List ℕ) (g : ℕ → ℕ) : ℕ → ℕ
  | 0 => 0
  | i + 1 =>
    let k := edgeSetK indices g i
    if i = indices.getD k (g k) then k + 1 else k

/-- The (column `k`, row `i`) pairs with `i >= k+1`, in the order the
matrix loop of `write_graph` visits them (source lines 574-586); the
position of a pair in this list is the value of the slot counter `j`
when the pair is processed. -/
def pairList (V : ℕ) : List (ℕ × ℕ) :=
  (List.range V).flatMap (fun k =>
    ((List.range V).filter (fun i => k + 1 ≤ i)).map (fun i => (k, i)))

/-- The cell assignments `adjMatrix[i][k] = edgeSet[j];
adjMatrix[k][i] = edgeSet[j];` performed by `write_graph`
(source lines 583-584), as (cell, value) pairs in execution order. -/
def adjWrites (es : List Bool) (V : ℕ) : List ((ℕ × ℕ) × Bool) :=
  (pairList V).enum.flatMap (fun p =>
    [((p.2.2, p.2.1), es.getD p.1 false), ((p.2.1, p.2.2), es.getD p.1 false)])

/-- The adjacency matrix printed by `write_graph`: every cell starts at 0
(source lines 564-566), each off-diagonal cell is assigned exactly once
before it is printed, and diagonal cells are never assigned. -/
def adjMatrixM (es : List Bool) (V : ℕ) (a b : ℕ) : Bool :=
  ((adjWrites es V).lookup (a, b)).getD false

/-! ## Analysis aids for the enumerator

The definitions below are not part of the source model; they are the
vocabulary used to state and prove the enumerator's properties. -/

/-- The first position `j ≥ j₀` (with `j < m`) whose cell is not at its
home value `j`, or `m` if every position in `[j₀, m)` is home. -/
def firstNHAux (idx : ℕ → ℕ) : ℕ → ℕ → ℕ
  | 0, j => j
  | fuel + 1, j => if idx j = j then firstNHAux idx fuel (j + 1) else j

/-- The first non-home position of the array, or `m` if the array is the
minimum combination `[0, 1, ..., m-1]`. -/
def firstNH (m : ℕ) (idx : ℕ → ℕ) : ℕ := firstNHAux idx m 0

/-- The colexicographic predecessor of a combination, at the level of the
array state: decrement the first non-home position `j` and refill every
position below `j` with the densest increasing run ending just below the
new value. -/
def predF (m : ℕ) (idx : ℕ → ℕ) : ℕ → ℕ :=
  fun i =>
    if i < firstNH m idx then idx (firstNH m idx) - 1 - (firstNH m idx - i)
    else if i = firstNH m idx then idx (firstNH m idx) - 1
    else idx i

/-- The combinations printed by `r` successive predecessor steps. -/
def predChainF (m : ℕ) : (ℕ → ℕ) → ℕ → List (List ℕ)
  | _, 0 => []
  | idx, r + 1 => emitC m (predF m idx) :: predChainF m (predF m idx) r

/-- The colexicographic rank of the array state: the number of
`m`-combinations colexicographically below it. -/
def rankF (m : ℕ) (idx : ℕ → ℕ) : ℕ :=
  ∑ i ∈ Finset.range m, Nat.choose (idx i) (i + 1)

/-- The colexicographic rank of a printed combination. -/
def rankL (c : List ℕ) : ℕ :=
  ∑ i ∈ Finset.range c.length, Nat.choose (c.getD i 0) (i + 1)

/-- The array holds the minimum combination `[0, 1, ..., m-1]`. -/
def isMin (m : ℕ) (idx : ℕ → ℕ) : Prop := ∀ i, i < m → idx i = i

/-- A valid combination state: strictly increasing across the array's
`m` cells, all entries below `n`. -/
def goodIdx (n m : ℕ) (idx : ℕ → ℕ) : Prop :=
  (∀ i j, i < j → j < m → idx i < idx j) ∧ (∀ i, i < m → idx i < n)

/-- The loop invariant at the top of the outer `do`-loop: the cursor is
in range, every position below it is home, and the cursor's own cell is
home unless the cursor is 0. -/
def TopInv (m : ℕ) (idx : ℕ → ℕ) (k : ℕ) : Prop :=
  k < m ∧ (∀ i, i < k → idx i = i) ∧ (idx k = k ∨ k = 0)

/-- Strict colexicographic order on equal-length combinations: some
position is strictly smaller and every later position agrees. -/
def colexLt (a b : List ℕ) : Prop :=
  a.length = b.length ∧
    ∃ j, j < b.length ∧ a.getD j 0 < b.getD j 0 ∧
      ∀ i, i < b.length → j < i → a.getD i 0 = b.getD i 0

/-- The state of `min_incident`'s search once some admissible boundary edge
has been recorded: the recorded index points at a boundary edge whose
weight is the recorded `minWeight`, and `result_uMatch` remembers which
endpoint was inside `vT`. -/
def RightInv (G : List WeightedEdge) (vT : List ℤ) (acc : MinAcc) : Prop :=
  acc.minWeight < intMax ∧ acc.minIndex < G.length ∧
    vtMem (getEdge G acc.minIndex).u vT ≠ vtMem (getEdge G acc.minIndex).v vT ∧
    acc.result_uMatch = vtMem (getEdge G acc.minIndex).u vT

/-! ## Concrete inputs used by individual claims -/

/-- A 1×1 input matrix whose single entry is 5: one vertex with a
self-loop of weight 5 (input file `1` / `5`). -/
def M_selfLoop : ℕ → ℕ → ℤ := fun j i => if j = 0 ∧ i = 0 then 5 else 0

/-- A 2×2 matrix whose only non-zero entry sits at row 0, column 1
(strictly above the diagonal); every entry with row-index ≥ column-index
is zero. -/
def M_upperOnly : ℕ → ℕ → ℤ := fun j i => if j = 0 ∧ i = 1 then 5 else 0

/-- A garbage oracle: every out-of-bounds read returns 0. -/
def gZero : ℕ → ℕ := fun _ => 0

/-- A garbage oracle: every out-of-bounds read returns 1. -/
def gOne : ℕ → ℕ := fun _ => 1

end GraphWorks

/-! ## Basic lemmas -/

namespace GraphWorks

theorem emitC_length (m : ℕ) (idx : ℕ → ℕ) : (emitC m idx).length = m := by
  simp [emitC]

theorem emitC_getD (m : ℕ) (idx : ℕ → ℕ) (i : ℕ) (h : i < m) :
    (emitC m idx).getD i 0 = idx i := by
  rw [emitC, List.getD_eq_getElem?_getD]
  simp [List.getElem?_map, List.getElem?_range h]

theorem mem_emitC (m : ℕ) (idx : ℕ → ℕ) (x : ℕ) :
    x ∈ emitC m idx ↔ ∃ i, i < m ∧ idx i = x := by
  simp [emitC, List.mem_map]

theorem goodIdx_le {n m : ℕ} {idx : ℕ → ℕ} (hg : goodIdx n m idx) :
    ∀ i, i < m → i ≤ idx i := by
  intro i
  induction i with
  | zero => omega
  | succ i ih =>
    intro hi
    have h1 := hg.1 i (i + 1) (by omega) hi
    have h2 := ih (by omega)
    omega

theorem firstNHAux_spec (idx : ℕ → ℕ) :
    ∀ fuel j, j ≤ firstNHAux idx fuel j ∧ firstNHAux idx fuel j ≤ j + fuel ∧
      (∀ i, j ≤ i → i < firstNHAux idx fuel j → idx i = i) ∧
      (firstNHAux idx fuel j < j + fuel →
        idx (firstNHAux idx fuel j) ≠ firstNHAux idx fuel j) := by
  intro fuel
  induction fuel with
  | zero =>
    intro j
    have hbody : firstNHAux idx 0 j = j := rfl
    rw [hbody]
    exact ⟨Nat.le_refl _, by omega, fun i h1 h2 => by omega, fun h => by omega⟩
  | succ fuel ih =>
    intro j
    by_cases h : idx j = j
    · have hbody : firstNHAux idx (fuel + 1) j = firstNHAux idx fuel (j + 1) := by
        simp [firstNHAux, h]
      obtain ⟨h1, h2, h3, h4⟩ := ih (j + 1)
      rw [hbody]
      refine ⟨by omega, by omega, ?_, ?_⟩
      · intro i hji hir
        rcases Nat.eq_or_lt_of_le hji with rfl | hlt
        · exact h
        · exact h3 i hlt hir
      · intro hlt
        exact h4 (by omega)
    · have hbody : firstNHAux idx (fuel + 1) j = j := by
        simp [firstNHAux, h]
      rw [hbody]
      exact ⟨Nat.le_refl _, by omega, fun i h1 h2 => by omega, fun _ => h⟩

theorem firstNH_le (m : ℕ) (idx : ℕ → ℕ) : firstNH m idx ≤ m := by
  have h := (firstNHAux_spec idx m 0).2.1
  have h0 : firstNH m idx = firstNHAux idx m 0 := rfl
  omega

theorem firstNH_home (m : ℕ) (idx : ℕ → ℕ) :
    ∀ i, i < firstNH m idx → idx i = i := by
  intro i hi
  exact (firstNHAux_spec idx m 0).2.2.1 i (Nat.zero_le i) hi

theorem firstNH_ne (m : ℕ) (idx : ℕ → ℕ) (h : firstNH m idx < m) :
    idx (firstNH m idx) ≠ firstNH m idx := by
  have h2 := (firstNHAux_spec idx m 0).2.2.2
  have h0 : firstNH m idx = firstNHAux idx m 0 := rfl
  rw [h0] at h ⊢
  exact h2 (by omega)

theorem firstNH_eq_iff_isMin (m : ℕ) (idx : ℕ → ℕ) :
    firstNH m idx = m ↔ isMin m idx := by
  constructor
  · intro h i hi
    exact firstNH_home m idx i (by omega)
  · intro h
    rcases Nat.lt_or_ge (firstNH m idx) m with hlt | hge
    · exact absurd (h _ hlt) (firstNH_ne m idx hlt)
    · have := firstNH_le m idx
      omega

theorem firstNH_of_not_isMin {m : ℕ} {idx : ℕ → ℕ} (h : ¬ isMin m idx) :
    firstNH m idx < m ∧ idx (firstNH m idx) ≠ firstNH m idx ∧
      ∀ i, i < firstNH m idx → idx i = i := by
  have hne : firstNH m idx ≠ m := fun he => h ((firstNH_eq_iff_isMin m idx).1 he)
  have hle := firstNH_le m idx
  have hlt : firstNH m idx < m := by omega
  exact ⟨hlt, firstNH_ne m idx hlt, firstNH_home m idx⟩

theorem scanNextAux_spec (idx : ℕ → ℕ) (m : ℕ) :
    ∀ fuel k, fuel + k = m → k < m →
      k < scanNextAux idx m fuel k ∧ scanNextAux idx m fuel k ≤ m ∧
      (∀ i, k < i → i < scanNextAux idx m fuel k → idx i = i) ∧
      (scanNextAux idx m fuel k < m →
        idx (scanNextAux idx m fuel k) ≠ scanNextAux idx m fuel k) := by
  intro fuel
  induction fuel with
  | zero => intro k h1 h2; omega
  | succ fuel ih =>
    intro k h1 h2
    rcases Nat.eq_or_lt_of_le (Nat.succ_le_of_lt h2) with hkm | hkm
    · -- k + 1 = m: the scan stops at m
      have hcond : ¬ (idx (k + 1) = k + 1 ∧ k + 1 ≠ m) := by
        intro hc
        exact hc.2 (by omega)
      have hbody : scanNextAux idx m (fuel + 1) k = k + 1 := by
        simp only [scanNextAux, if_neg hcond]
      rw [hbody]
      refine ⟨by omega, by omega, fun i hi1 hi2 => by omega, fun hlt => by omega⟩
    · -- k + 1 < m
      by_cases hh : idx (k + 1) = k + 1
      · have hcond : idx (k + 1) = k + 1 ∧ k + 1 ≠ m := ⟨hh, by omega⟩
        have hbody : scanNextAux idx m (fuel + 1) k = scanNextAux idx m fuel (k + 1) := by
          simp only [scanNextAux, if_pos hcond]
        obtain ⟨h3, h4, h5, h6⟩ := ih (k + 1) (by omega) hkm
        rw [hbody]
        refine ⟨by omega, h4, ?_, h6⟩
        intro i hki hir
        rcases Nat.eq_or_lt_of_le (Nat.succ_le_of_lt hki) with rfl | hlt
        · exact hh
        · exact h5 i hlt hir
      · have hcond : ¬ (idx (k + 1) = k + 1 ∧ k + 1 ≠ m) := by
          intro hc
          exact hh hc.1
        have hbody : scanNextAux idx m (fuel + 1) k = k + 1 := by
          simp only [scanNextAux, if_neg hcond]
        rw [hbody]
        refine ⟨by omega, by omega, fun i hi1 hi2 => by omega, fun _ => hh⟩

theorem scanNext_eq_firstNH {m : ℕ} {idx : ℕ → ℕ} {k : ℕ} (hk : k < m)
    (hhome : ∀ i, i ≤ k → idx i = i) (hmin : ¬ isMin m idx) :
    scanNext idx m k = firstNH m idx := by
  obtain ⟨hj, hjne, hjhome⟩ := firstNH_of_not_isMin hmin
  have hspec := scanNextAux_spec idx m (m - k) k (by omega) hk
  obtain ⟨h1, h2, h3, h4⟩ := hspec
  rw [scanNext]
  set r := scanNextAux idx m (m - k) k with hr
  -- the first non-home position is above k
  have hjk : k < firstNH m idx := by
    rcases Nat.lt_or_ge k (firstNH m idx) with h | h
    · exact h
    · exact absurd (hhome _ h) hjne
  rcases lt_trichotomy r (firstNH m idx) with h | h | h
  · -- r would be home yet non-home
    have hrm : r < m := by
      have := firstNH_le m idx
      omega
    exact absurd (firstNH_home m idx r h) (h4 hrm)
  · exact h
  · exact absurd (h3 _ hjk h) hjne

end GraphWorks

namespace GraphWorks

theorem firstNH_lt_val {n m : ℕ} {idx : ℕ → ℕ} (hg : goodIdx n m idx)
    (hm : ¬ isMin m idx) : firstNH m idx < idx (firstNH m idx) := by
  obtain ⟨hj, hne, _⟩ := firstNH_of_not_isMin hm
  have := goodIdx_le hg _ hj
  omega

theorem predF_apply_le {m : ℕ} {idx : ℕ → ℕ} (i : ℕ) (h : i ≤ firstNH m idx) :
    predF m idx i = idx (firstNH m idx) - 1 - (firstNH m idx - i) := by
  by_cases h1 : i < firstNH m idx
  · simp [predF, h1]
  · have h2 : i = firstNH m idx := by omega
    subst h2
    simp [predF]

theorem predF_apply_gt {m : ℕ} {idx : ℕ → ℕ} (i : ℕ) (h : firstNH m idx < i) :
    predF m idx i = idx i := by
  have h1 : ¬ i < firstNH m idx := by omega
  have h2 : ¬ i = firstNH m idx := by omega
  simp [predF, h1, h2]

theorem goodIdx_predF {n m : ℕ} {idx : ℕ → ℕ} (hg : goodIdx n m idx)
    (hm : ¬ isMin m idx) : goodIdx n m (predF m idx) := by
  obtain ⟨hj, hne, hhome⟩ := firstNH_of_not_isMin hm
  have hjv : firstNH m idx < idx (firstNH m idx) := firstNH_lt_val hg hm
  constructor
  · intro a b hab hbm
    by_cases hbj : b ≤ firstNH m idx
    · rw [predF_apply_le a (by omega), predF_apply_le b hbj]
      omega
    · push_neg at hbj
      rw [predF_apply_gt b hbj]
      by_cases haj : a ≤ firstNH m idx
      · rw [predF_apply_le a haj]
        have := hg.1 (firstNH m idx) b hbj hbm
        omega
      · push_neg at haj
        rw [predF_apply_gt a haj]
        exact hg.1 a b hab hbm
  · intro i him
    by_cases hij : i ≤ firstNH m idx
    · rw [predF_apply_le i hij]
      have := hg.2 (firstNH m idx) (by omega)
      omega
    · push_neg at hij
      rw [predF_apply_gt i hij]
      exact hg.2 i him

theorem sum_choose_shift (j : ℕ) : ∀ t, j ≤ t →
    (∑ i ∈ Finset.range (j + 1), Nat.choose (t - j + i) (i + 1)) + 1 =
      Nat.choose (t + 1) (j + 1) := by
  induction j with
  | zero =>
    intro t ht
    rw [Finset.sum_range_one]
    simp [Nat.choose_one_right]
  | succ j ih =>
    intro t ht
    rw [Finset.sum_range_succ]
    have e2 : ∀ i ∈ Finset.range (j + 1),
        Nat.choose (t - (j + 1) + i) (i + 1) = Nat.choose (t - 1 - j + i) (i + 1) := by
      intro i _
      congr 1
      omega
    rw [Finset.sum_congr rfl e2]
    have e1 : t - (j + 1) + (j + 1) = t := by omega
    rw [e1]
    have ih2 := ih (t - 1) (by omega)
    have e3 : t - 1 + 1 = t := by omega
    rw [e3] at ih2
    have hcs : Nat.choose (t + 1) (j + 1 + 1) =
        Nat.choose t (j + 1) + Nat.choose t (j + 1 + 1) := Nat.choose_succ_succ t (j + 1)
    omega

theorem rankF_predF {n m : ℕ} {idx : ℕ → ℕ} (hg : goodIdx n m idx)
    (hm : ¬ isMin m idx) : rankF m (predF m idx) + 1 = rankF m idx := by
  obtain ⟨hj, hne, hhome⟩ := firstNH_of_not_isMin hm
  have hjv : firstNH m idx < idx (firstNH m idx) := firstNH_lt_val hg hm
  have hsplit : ∀ f : ℕ → ℕ, (∑ i ∈ Finset.range m, f i) =
      (∑ i ∈ Finset.range (firstNH m idx + 1), f i) +
        ∑ i ∈ Finset.Ico (firstNH m idx + 1) m, f i := by
    intro f
    rw [Finset.range_eq_Ico]
    exact (Finset.sum_Ico_consecutive f (by omega) (by omega)).symm
  rw [rankF, rankF, hsplit, hsplit]
  have htail : ∑ i ∈ Finset.Ico (firstNH m idx + 1) m,
      Nat.choose (predF m idx i) (i + 1) =
      ∑ i ∈ Finset.Ico (firstNH m idx + 1) m, Nat.choose (idx i) (i + 1) := by
    refine Finset.sum_congr rfl ?_
    intro i hi
    rw [Finset.mem_Ico] at hi
    rw [predF_apply_gt i (by omega)]
  have hheadp : (∑ i ∈ Finset.range (firstNH m idx + 1),
      Nat.choose (predF m idx i) (i + 1)) + 1 =
      Nat.choose (idx (firstNH m idx)) (firstNH m idx + 1) := by
    have hc : ∀ i ∈ Finset.range (firstNH m idx + 1),
        Nat.choose (predF m idx i) (i + 1) =
          Nat.choose (idx (firstNH m idx) - 1 - firstNH m idx + i) (i + 1) := by
      intro i hi
      rw [Finset.mem_range] at hi
      rw [predF_apply_le i (by omega)]
      congr 1
      omega
    rw [Finset.sum_congr rfl hc]
    have hs := sum_choose_shift (firstNH m idx) (idx (firstNH m idx) - 1) (by omega)
    have e : idx (firstNH m idx) - 1 + 1 = idx (firstNH m idx) := by omega
    rw [e] at hs
    exact hs
  have hheadi : ∑ i ∈ Finset.range (firstNH m idx + 1),
      Nat.choose (idx i) (i + 1) =
      Nat.choose (idx (firstNH m idx)) (firstNH m idx + 1) := by
    rw [Finset.sum_range_succ]
    have hz : ∑ i ∈ Finset.range (firstNH m idx), Nat.choose (idx i) (i + 1) = 0 := by
      refine Finset.sum_eq_zero ?_
      intro i hi
      rw [Finset.mem_range] at hi
      rw [hhome i hi]
      exact Nat.choose_eq_zero_of_lt (by omega)
    rw [hz]
    omega
  omega

theorem rankF_eq_zero_iff {n m : ℕ} {idx : ℕ → ℕ} (hg : goodIdx n m idx) :
    rankF m idx = 0 ↔ isMin m idx := by
  constructor
  · intro h i hi
    rw [rankF] at h
    have hterm := Finset.sum_eq_zero_iff.mp h i (Finset.mem_range.mpr hi)
    have h2 := Nat.choose_eq_zero_iff.mp hterm
    have h3 := goodIdx_le hg i hi
    omega
  · intro h
    rw [rankF]
    refine Finset.sum_eq_zero ?_
    intro i hi
    rw [Finset.mem_range] at hi
    rw [h i hi]
    exact Nat.choose_eq_zero_of_lt (by omega)

theorem goodIdx_initIdx {n m : ℕ} (h2 : m < n) : goodIdx n m (initIdx n m) := by
  constructor
  · intro i j hij hjm
    simp only [initIdx]
    omega
  · intro i him
    simp only [initIdx]
    omega

theorem rankF_initIdx {n m : ℕ} (h1 : 1 ≤ m) (h2 : m < n) :
    rankF m (initIdx n m) + 1 = Nat.choose n m := by
  obtain ⟨m1, rfl⟩ : ∃ m1, m = m1 + 1 := ⟨m - 1, by omega⟩
  have hcongr : ∀ i ∈ Finset.range (m1 + 1),
      Nat.choose (initIdx n (m1 + 1) i) (i + 1) =
        Nat.choose (n - 1 - m1 + i) (i + 1) := by
    intro i _
    have hv : initIdx n (m1 + 1) i = n - (m1 + 1) + i := rfl
    rw [hv]
    congr 1
    omega
  rw [rankF, Finset.sum_congr rfl hcongr]
  have hs := sum_choose_shift m1 (n - 1) (by omega)
  have e : n - 1 + 1 = n := by omega
  rw [e] at hs
  exact hs

theorem rankL_emitC (m : ℕ) (idx : ℕ → ℕ) : rankL (emitC m idx) = rankF m idx := by
  rw [rankL, emitC_length, rankF]
  refine Finset.sum_congr rfl ?_
  intro i hi
  rw [Finset.mem_range] at hi
  rw [emitC_getD m idx i hi]

theorem emitC_of_isMin {m : ℕ} {idx : ℕ → ℕ} (h : isMin m idx) :
    emitC m idx = List.range m := by
  rw [emitC]
  apply List.ext_getElem
  · simp
  · intro i h1 h2
    simp only [List.getElem_map, List.getElem_range]
    exact h i (by simpa using h2)

theorem chain'_lt_emitC {n m : ℕ} {idx : ℕ → ℕ} (hg : goodIdx n m idx) :
    List.Chain' (· < ·) (emitC m idx) := by
  rw [List.chain'_iff_pairwise, emitC, List.pairwise_map]
  refine (List.pairwise_lt_range m).imp_of_mem ?_
  intro a b ha hb hab
  rw [List.mem_range] at ha hb
  exact hg.1 a b hab hb

theorem colexLt_emitC_predF {n m : ℕ} {idx : ℕ → ℕ} (hg : goodIdx n m idx)
    (hm : ¬ isMin m idx) : colexLt (emitC m (predF m idx)) (emitC m idx) := by
  obtain ⟨hj, hne, hhome⟩ := firstNH_of_not_isMin hm
  have hjv := firstNH_lt_val hg hm
  refine ⟨by rw [emitC_length, emitC_length], firstNH m idx, ?_, ?_, ?_⟩
  · rw [emitC_length]
    exact hj
  · rw [emitC_getD _ _ _ hj, emitC_getD _ _ _ hj, predF_apply_le _ (Nat.le_refl _)]
    omega
  · intro i hi hji
    rw [emitC_length] at hi
    rw [emitC_getD _ _ _ hi, emitC_getD _ _ _ hi, predF_apply_gt i hji]

end GraphWorks

namespace GraphWorks

theorem comboNext_step {n m : ℕ} {idx : ℕ → ℕ} {k : ℕ}
    (hg : goodIdx n m idx) (ht : TopInv m idx k) (hm : ¬ isMin m idx) :
    ∃ k1, TopInv m (predF m idx) k1 ∧
      ((isMin m (predF m idx) ∧ 2 ≤ m ∧
          comboNext m idx k = some (emitC m (predF m idx), none)) ∨
        (¬ (isMin m (predF m idx) ∧ 2 ≤ m) ∧
          comboNext m idx k = some (emitC m (predF m idx), some (predF m idx, k1)))) := by
  obtain ⟨hkm, hkhome, hk0⟩ := ht
  obtain ⟨hj, hjne, hjhome⟩ := firstNH_of_not_isMin hm
  have hjv : firstNH m idx < idx (firstNH m idx) := firstNH_lt_val hg hm
  by_cases hA : idx k = k
  · -- bottom of the loop: the cursor cell is home
    have hhomele : ∀ i, i ≤ k → idx i = i := by
      intro i hi
      rcases Nat.eq_or_lt_of_le hi with rfl | h
      · exact hA
      · exact hkhome i h
    have hm2 : 2 ≤ m := by
      by_contra hm2c
      have hm1 : m = 1 := by omega
      apply hm
      intro i hi
      have hi0 : i = 0 := by omega
      subst hi0
      exact hhomele 0 (Nat.zero_le k)
    have hm1 : m ≠ 1 := by omega
    have hscan : scanNext idx m k = firstNH m idx :=
      scanNext_eq_firstNH hkm hhomele hm
    have hjk : k < firstNH m idx := by
      rcases Nat.lt_or_ge k (firstNH m idx) with h | h
      · exact h
      · exact absurd (hhomele _ h) hjne
    by_cases hv1 : idx (firstNH m idx) - 1 = firstNH m idx
    · -- non-cascade: the decremented cell lands home
      have heq1 : (fun i => if i = firstNH m idx
          then idx (firstNH m idx) - 1 else idx i) = predF m idx := by
        funext i
        rcases lt_trichotomy i (firstNH m idx) with h | h | h
        · rw [if_neg (by omega), predF_apply_le i (by omega), hjhome i h]
          omega
        · rw [if_pos h, predF_apply_le i (by omega)]
          omega
        · rw [if_neg (by omega), predF_apply_gt i h]
      have hiff : isMin m (predF m idx) ↔ firstNH m idx = m - 1 := by
        constructor
        · intro hmin
          by_contra hnem
          have hjm1 : firstNH m idx + 1 < m := by omega
          have h1 : predF m idx (firstNH m idx + 1) = idx (firstNH m idx + 1) :=
            predF_apply_gt _ (by omega)
          have h2 : predF m idx (firstNH m idx + 1) = firstNH m idx + 1 :=
            hmin _ hjm1
          have h3 : idx (firstNH m idx) < idx (firstNH m idx + 1) :=
            hg.1 _ _ (by omega) hjm1
          omega
        · intro hjm i hi
          have him : i ≤ firstNH m idx := by omega
          rw [predF_apply_le i him]
          omega
      have hpredlow : ∀ i, i < firstNH m idx → predF m idx i = i := by
        intro i hi
        rw [predF_apply_le i (by omega)]
        omega
      have hpredj : predF m idx (firstNH m idx) = firstNH m idx := by
        rw [predF_apply_le _ (Nat.le_refl _)]
        omega
      by_cases hjeq : firstNH m idx = m - 1
      · -- the printed combination is the minimum: the outer while exits
        refine ⟨0, ⟨by omega, fun i hi => by omega, Or.inr rfl⟩,
          Or.inl ⟨hiff.mpr hjeq, hm2, ?_⟩⟩
        simp only [comboNext, hscan]
        rw [if_neg (not_not_intro hA), if_neg hm1]
        split_ifs <;> try omega
        all_goals rw [heq1]
      · -- the loop continues with the cursor at the scanned position
        refine ⟨firstNH m idx, ⟨hj, hpredlow, Or.inl hpredj⟩,
          Or.inr ⟨by rintro ⟨hmin, -⟩; exact hjeq (hiff.mp hmin), ?_⟩⟩
        simp only [comboNext, hscan]
        rw [if_neg (not_not_intro hA), if_neg hm1]
        split_ifs <;> try omega
        all_goals rw [heq1]
    · -- cascade: refill all positions below the scanned cursor
      have hnotmin : ¬ isMin m (predF m idx) := by
        intro hmin
        have h1 := hmin (firstNH m idx) hj
        rw [predF_apply_le _ (Nat.le_refl _)] at h1
        omega
      refine ⟨0, ⟨by omega, fun i hi => by omega, Or.inr rfl⟩,
        Or.inr ⟨by rintro ⟨hmin, -⟩; exact hnotmin hmin, ?_⟩⟩
      simp only [comboNext, hscan]
      rw [if_neg (not_not_intro hA), if_neg hm1]
      split_ifs <;> try omega
      all_goals rfl
  · -- top of the inner while: the cursor is 0 and not home
    have hk : k = 0 := by
      rcases hk0 with h | h
      · exact absurd h hA
      · exact h
    subst hk
    have hj0 : firstNH m idx = 0 := by
      by_contra hne0
      exact hA (hjhome 0 (by omega))
    have heq : (fun i => if i = 0 then idx 0 - 1 else idx i) = predF m idx := by
      funext i
      by_cases hi : i = 0
      · subst hi
        rw [if_pos rfl, predF_apply_le 0 (by omega), hj0]
        omega
      · rw [if_neg hi, predF_apply_gt i (by omega)]
    have hnotmin : ¬ (isMin m (predF m idx) ∧ 2 ≤ m) := by
      rintro ⟨hmin, hm2⟩
      have h1 : predF m idx 1 = idx 1 := predF_apply_gt 1 (by omega)
      have h2 : predF m idx 1 = 1 := hmin 1 (by omega)
      have h3 : predF m idx 0 = 0 := hmin 0 (by omega)
      have h4 : predF m idx 0 = idx 0 - 1 := by
        rw [predF_apply_le 0 (by omega), hj0]
        omega
      have h5 : idx 0 < idx 1 := hg.1 0 1 (by omega) (by omega)
      have h6 : 0 < idx 0 := by
        rcases Nat.eq_zero_or_pos (idx 0) with h | h
        · exact absurd (by omega : idx 0 = 0) hA
        · exact h
      omega
    refine ⟨0, ⟨hkm, fun i hi => by omega, Or.inr rfl⟩,
      Or.inr ⟨hnotmin, ?_⟩⟩
    simp only [comboNext]
    rw [if_pos hA]
    rw [heq]

theorem comboRun_eq_predChainF {n m : ℕ} :
    ∀ (r : ℕ) (idx : ℕ → ℕ) (k fuel : ℕ),
      goodIdx n m idx → TopInv m idx k → rankF m idx = r → (2 ≤ m → 1 ≤ r) →
      r ≤ fuel → comboRun m fuel (idx, k) = predChainF m idx r := by
  intro r
  induction r with
  | zero =>
    intro idx k fuel hg ht hr hm2 hf
    have hmin : isMin m idx := (rankF_eq_zero_iff hg).mp hr
    have hm1 : m = 1 := by
      have h1 := ht.1
      by_contra h
      have h2 : 2 ≤ m := by omega
      have := hm2 h2
      omega
    subst hm1
    have hk : k = 0 := by
      have := ht.1
      omega
    subst hk
    have hnext : comboNext 1 idx 0 = none := by
      have h0 : idx 0 = 0 := hmin 0 (by omega)
      simp [comboNext, h0]
    cases fuel with
    | zero => rfl
    | succ fuel =>
      show loopRun (comboNext 1) (fuel + 1) (idx, 0) = predChainF 1 idx 0
      simp only [loopRun, hnext]
      rfl
  | succ r ih =>
    intro idx k fuel hg ht hr hm2 hf
    have hmin : ¬ isMin m idx := by
      intro h
      have := (rankF_eq_zero_iff hg).mpr h
      omega
    obtain ⟨k1, ht1, hstep⟩ := comboNext_step hg ht hmin
    have hgp : goodIdx n m (predF m idx) := goodIdx_predF hg hmin
    have hrp : rankF m (predF m idx) = r := by
      have := rankF_predF hg hmin
      omega
    cases fuel with
    | zero => omega
    | succ fuel =>
      rcases hstep with ⟨hpmin, hm2v, heq⟩ | ⟨hnot, heq⟩
      · -- halt step: the printed combination is the minimum
        have hr0 : r = 0 := by
          have := (rankF_eq_zero_iff hgp).mpr hpmin
          omega
        subst hr0
        show loopRun (comboNext m) (fuel + 1) (idx, k) = predChainF m idx 1
        simp only [loopRun, heq]
        rfl
      · -- continue step
        have hm2r : 2 ≤ m → 1 ≤ r := by
          intro h2
          have hnm : ¬ isMin m (predF m idx) := fun hmn => hnot ⟨hmn, h2⟩
          have h3 : rankF m (predF m idx) ≠ 0 :=
            fun h0 => hnm ((rankF_eq_zero_iff hgp).mp h0)
          omega
        have hrun := ih (predF m idx) k1 fuel hgp ht1 hrp hm2r (by omega)
        show loopRun (comboNext m) (fuel + 1) (idx, k) = predChainF m idx (r + 1)
        simp only [loopRun, heq]
        simp only [predChainF]
        rw [← hrun]
        rfl

theorem predChainF_length (m : ℕ) :
    ∀ (r : ℕ) (idx : ℕ → ℕ), (predChainF m idx r).length = r := by
  intro r
  induction r with
  | zero => intro idx; rfl
  | succ r ih =>
    intro idx
    show (emitC m (predF m idx) :: predChainF m (predF m idx) r).length = r + 1
    rw [List.length_cons, ih]

theorem predChainF_mem {n m : ℕ} :
    ∀ (r : ℕ) (idx : ℕ → ℕ), goodIdx n m idx → rankF m idx = r →
      ∀ c ∈ predChainF m idx r,
        (∃ idx2, goodIdx n m idx2 ∧ c = emitC m idx2) ∧ rankL c < r := by
  intro r
  induction r with
  | zero => intro idx hg hr c hc; exact absurd hc (List.not_mem_nil c)
  | succ r ih =>
    intro idx hg hr c hc
    have hmin : ¬ isMin m idx := by
      intro h
      have := (rankF_eq_zero_iff hg).mpr h
      omega
    have hgp : goodIdx n m (predF m idx) := goodIdx_predF hg hmin
    have hrp : rankF m (predF m idx) = r := by
      have := rankF_predF hg hmin
      omega
    rcases List.mem_cons.mp hc with rfl | hc
    · refine ⟨⟨predF m idx, hgp, rfl⟩, ?_⟩
      rw [rankL_emitC, hrp]
      omega
    · obtain ⟨he, hlt⟩ := ih (predF m idx) hgp hrp c hc
      exact ⟨he, by omega⟩

theorem predChainF_nodup {n m : ℕ} :
    ∀ (r : ℕ) (idx : ℕ → ℕ), goodIdx n m idx → rankF m idx = r →
      (predChainF m idx r).Nodup := by
  intro r
  induction r with
  | zero => intro idx hg hr; exact List.nodup_nil
  | succ r ih =>
    intro idx hg hr
    have hmin : ¬ isMin m idx := by
      intro h
      have := (rankF_eq_zero_iff hg).mpr h
      omega
    have hgp : goodIdx n m (predF m idx) := goodIdx_predF hg hmin
    have hrp : rankF m (predF m idx) = r := by
      have := rankF_predF hg hmin
      omega
    show (emitC m (predF m idx) :: predChainF m (predF m idx) r).Nodup
    rw [List.nodup_cons]
    constructor
    · intro hmem
      have := (predChainF_mem r (predF m idx) hgp hrp _ hmem).2
      rw [rankL_emitC, hrp] at this
      omega
    · exact ih (predF m idx) hgp hrp

theorem predChainF_getLast {n m : ℕ} :
    ∀ (r : ℕ) (idx : ℕ → ℕ), goodIdx n m idx → rankF m idx = r → 1 ≤ r →
      (predChainF m idx r).getLast? = some (List.range m) := by
  intro r
  induction r with
  | zero => intro idx hg hr h1; omega
  | succ r ih =>
    intro idx hg hr h1
    have hmin : ¬ isMin m idx := by
      intro h
      have := (rankF_eq_zero_iff hg).mpr h
      omega
    have hgp : goodIdx n m (predF m idx) := goodIdx_predF hg hmin
    have hrp : rankF m (predF m idx) = r := by
      have := rankF_predF hg hmin
      omega
    show (emitC m (predF m idx) :: predChainF m (predF m idx) r).getLast? =
      some (List.range m)
    rcases Nat.eq_zero_or_pos r with hr0 | hrpos
    · subst hr0
      have hpmin : isMin m (predF m idx) := (rankF_eq_zero_iff hgp).mp hrp
      show some (emitC m (predF m idx)) = some (List.range m)
      rw [emitC_of_isMin hpmin]
    · have hne : predChainF m (predF m idx) r ≠ [] := by
        intro h
        have := predChainF_length m r (predF m idx)
        rw [h] at this
        simp at this
        omega
      have hcons : ∀ (a : List ℕ) (l : List (List ℕ)), l ≠ [] →
          (a :: l).getLast? = l.getLast? := by
        intro a l hl
        cases l with
        | nil => exact absurd rfl hl
        | cons b t => rfl
      rw [hcons _ _ hne]
      exact ih (predF m idx) hgp hrp hrpos

theorem predChainF_chain {n m : ℕ} :
    ∀ (r : ℕ) (idx : ℕ → ℕ), goodIdx n m idx → rankF m idx = r →
      List.Chain' (fun a b => colexLt b a) (emitC m idx :: predChainF m idx r) := by
  intro r
  induction r with
  | zero => intro idx hg hr; exact List.chain'_singleton _
  | succ r ih =>
    intro idx hg hr
    have hmin : ¬ isMin m idx := by
      intro h
      have := (rankF_eq_zero_iff hg).mpr h
      omega
    have hgp : goodIdx n m (predF m idx) := goodIdx_predF hg hmin
    have hrp : rankF m (predF m idx) = r := by
      have := rankF_predF hg hmin
      omega
    show List.Chain' (fun a b => colexLt b a)
      (emitC m idx :: emitC m (predF m idx) :: predChainF m (predF m idx) r)
    rw [List.chain'_cons]
    exact ⟨colexLt_emitC_predF hg hmin, ih (predF m idx) hgp hrp⟩

theorem emitC_nodup {n m : ℕ} {idx : ℕ → ℕ} (hg : goodIdx n m idx) :
    (emitC m idx).Nodup := by
  have := chain'_lt_emitC hg
  rw [List.chain'_iff_pairwise] at this
  exact this.imp Nat.ne_of_lt

theorem sorted_eq_of_toFinset_eq {c d : List ℕ} (hc : List.Chain' (· < ·) c)
    (hd : List.Chain' (· < ·) d) (h : c.toFinset = d.toFinset) : c = d := by
  rw [List.chain'_iff_pairwise] at hc hd
  have hnc : c.Nodup := hc.imp Nat.ne_of_lt
  have hnd : d.Nodup := hd.imp Nat.ne_of_lt
  exact List.eq_of_perm_of_sorted (List.perm_of_nodup_nodup_toFinset_eq hnc hnd h) hc hd

theorem emitC_props {n m : ℕ} {idx : ℕ → ℕ} (hg : goodIdx n m idx) :
    (emitC m idx).length = m ∧ List.Chain' (· < ·) (emitC m idx) ∧
      ∀ x ∈ emitC m idx, x < n := by
  refine ⟨emitC_length m idx, chain'_lt_emitC hg, ?_⟩
  intro x hx
  rw [mem_emitC] at hx
  obtain ⟨i, him, rfl⟩ := hx
  exact hg.2 i him

theorem count_one_of_all {n m : ℕ} {L : List (List ℕ)}
    (hlen : L.length = Nat.choose n m)
    (hel : ∀ c ∈ L, ∃ idx2, goodIdx n m idx2 ∧ c = emitC m idx2)
    (hnd : L.Nodup) :
    ∀ s ∈ (Finset.range n).powersetCard m, (L.map List.toFinset).count s = 1 := by
  intro s hs
  have hchain : ∀ c ∈ L, List.Chain' (· < ·) c := by
    intro c hc
    obtain ⟨i2, hg2, rfl⟩ := hel c hc
    exact chain'_lt_emitC hg2
  have hmemP : ∀ c ∈ L, c.toFinset ∈ (Finset.range n).powersetCard m := by
    intro c hc
    obtain ⟨i2, hg2, rfl⟩ := hel c hc
    rw [Finset.mem_powersetCard]
    constructor
    · intro x hx
      rw [List.mem_toFinset, mem_emitC] at hx
      obtain ⟨i, him, rfl⟩ := hx
      exact Finset.mem_range.mpr (hg2.2 i him)
    · rw [List.toFinset_card_of_nodup (emitC_nodup hg2), emitC_length]
  have hndN : (L.map List.toFinset).Nodup := by
    refine hnd.map_on ?_
    intro x hx y hy hxy
    exact sorted_eq_of_toFinset_eq (hchain x hx) (hchain y hy) hxy
  have hsub : (L.map List.toFinset).toFinset ⊆ (Finset.range n).powersetCard m := by
    intro t ht
    rw [List.mem_toFinset, List.mem_map] at ht
    obtain ⟨c, hc, rfl⟩ := ht
    exact hmemP c hc
  have hcard : ((L.map List.toFinset).toFinset).card =
      ((Finset.range n).powersetCard m).card := by
    rw [List.toFinset_card_of_nodup hndN, List.length_map, hlen,
      Finset.card_powersetCard, Finset.card_range]
  have heq : (L.map List.toFinset).toFinset = (Finset.range n).powersetCard m :=
    Finset.eq_of_subset_of_card_le hsub (le_of_eq hcard.symm)
  have hsN : s ∈ L.map List.toFinset := by
    rw [← List.mem_toFinset, heq]
    exact hs
  exact List.count_eq_one_of_mem hndN hsN

theorem choose_two_le {n m : ℕ} (h1 : 1 ≤ m) (h2 : m < n) : 2 ≤ Nat.choose n m := by
  have ha : (m + 1).choose m ≤ n.choose m := Nat.choose_le_choose m h2
  rw [Nat.choose_succ_self_right] at ha
  omega

theorem make_combinations_out {n m fuel : ℕ} {L : List (List ℕ)} (h1 : 1 ≤ m)
    (h2 : m < n) (hfuel : Nat.choose n m ≤ fuel + 1)
    (hL : make_combinations n m fuel = some L) :
    L = emitC m (initIdx n m) ::
      predChainF m (initIdx n m) (rankF m (initIdx n m)) := by
  have hg0 : goodIdx n m (initIdx n m) := goodIdx_initIdx h2
  have ht0 : TopInv m (initIdx n m) 0 :=
    ⟨by omega, fun i hi => by omega, Or.inr rfl⟩
  have hr0 : rankF m (initIdx n m) + 1 = Nat.choose n m := rankF_initIdx h1 h2
  have hch2 : 2 ≤ Nat.choose n m := choose_two_le h1 h2
  have hrun := comboRun_eq_predChainF (rankF m (initIdx n m)) (initIdx n m) 0 fuel
    hg0 ht0 rfl (fun _ => by omega) (by omega)
  rw [make_combinations, if_neg (by omega : ¬ n ≤ m), hrun] at hL
  exact (Option.some_injective _ hL).symm

theorem emitC_initIdx (n m : ℕ) : emitC m (initIdx n m) = List.range' (n - m) m := by
  rw [List.range'_eq_map_range]
  rfl

theorem lastOfCons {α : Type} (a : α) (l : List α) (h : l ≠ []) :
    (a :: l).getLast? = l.getLast? := by
  cases l with
  | nil => exact absurd rfl h
  | cons b t => rfl

/-! ## Lemmas about the graph side -/

theorem create_graph_mem (V : ℕ) (M : ℕ → ℕ → ℤ) (e : WeightedEdge) :
    e ∈ create_graph V M ↔
      ∃ j i, j < V ∧ i < V ∧ j ≤ i ∧ M j i ≠ 0 ∧
        e = ⟨(i : ℤ), (j : ℤ), M j i⟩ := by
  rw [create_graph, List.mem_flatMap]
  constructor
  · rintro ⟨j, hj, hin⟩
    rw [List.mem_filterMap] at hin
    obtain ⟨i, hi, hsome⟩ := hin
    rw [List.mem_range] at hj hi
    by_cases hc : j ≤ i ∧ M j i ≠ 0
    · rw [if_pos hc] at hsome
      exact ⟨j, i, hj, hi, hc.1, hc.2, (Option.some_injective _ hsome).symm⟩
    · rw [if_neg hc] at hsome
      exact absurd hsome (by simp)
  · rintro ⟨j, i, hj, hi, hji, hM, rfl⟩
    refine ⟨j, List.mem_range.mpr hj, ?_⟩
    rw [List.mem_filterMap]
    exact ⟨i, List.mem_range.mpr hi, by rw [if_pos ⟨hji, hM⟩]⟩

theorem create_graph_inner_shape (V : ℕ) (M : ℕ → ℕ → ℤ) (j : ℕ) (e : WeightedEdge)
    (he : e ∈ (List.range V).filterMap (fun i =>
      if j ≤ i ∧ M j i ≠ 0 then some ⟨(i : ℤ), (j : ℤ), M j i⟩ else none)) :
    e.v = (j : ℤ) := by
  rw [List.mem_filterMap] at he
  obtain ⟨i, hi, hsome⟩ := he
  by_cases hc : j ≤ i ∧ M j i ≠ 0
  · rw [if_pos hc] at hsome
    have h1 := Option.some_injective _ hsome
    rw [← h1]
  · rw [if_neg hc] at hsome
    exact absurd hsome (by simp)

theorem create_graph_nodup (V : ℕ) (M : ℕ → ℕ → ℤ) : (create_graph V M).Nodup := by
  rw [create_graph, List.nodup_flatMap]
  constructor
  · intro j hj
    refine (List.nodup_range V).filterMap ?_
    intro a b c hca hcb
    rw [Option.mem_def] at hca hcb
    have hval : ∀ x : ℕ, (if j ≤ x ∧ M j x ≠ 0
        then some (⟨(x : ℤ), (j : ℤ), M j x⟩ : WeightedEdge) else none) = some c →
        c.u = (x : ℤ) := by
      intro x hx
      by_cases hc : j ≤ x ∧ M j x ≠ 0
      · rw [if_pos hc] at hx
        have h1 := Option.some_injective _ hx
        rw [← h1]
      · rw [if_neg hc] at hx
        exact absurd hx (by simp)
    have h1 := hval a hca
    have h2 := hval b hcb
    have h3 : (a : ℤ) = (b : ℤ) := by rw [← h1, ← h2]
    exact_mod_cast h3
  · refine (List.pairwise_lt_range V).imp_of_mem ?_
    intro a b ha hb hab
    intro e hea heb
    have h1 := create_graph_inner_shape V M a e hea
    have h2 := create_graph_inner_shape V M b e heb
    have h3 : (a : ℤ) = (b : ℤ) := by rw [← h1, ← h2]
    have h4 : a = b := by exact_mod_cast h3
    omega

theorem bool_sum_one_iff (a b : Bool) : (a.toNat + b.toNat = 1) ↔ a ≠ b := by
  cases a <;> cases b <;> simp

theorem getEdge_mem {G : List WeightedEdge} {i : ℕ} (h : i < G.length) :
    getEdge G i ∈ G := by
  rw [getEdge, List.getD_eq_getElem?_getD, List.getElem?_eq_getElem h]
  exact List.getElem_mem h

theorem min_incident_no_update (G : List WeightedEdge) (vT : List ℤ)
    (hnb : ∀ e ∈ G, vtMem e.u vT = vtMem e.v vT) :
    ∀ fuel i acc, min_incident_loop G vT fuel i acc = acc := by
  intro fuel
  induction fuel with
  | zero => intro i acc; rfl
  | succ fuel ih =>
    intro i acc
    simp only [min_incident_loop]
    by_cases hi : i < G.length
    · rw [if_pos hi]
      have heq := hnb _ (getEdge_mem hi)
      have hcond : ¬ (((vtMem (getEdge G i).u vT).toNat +
          (vtMem (getEdge G i).v vT).toNat = 1) ∧
          (getEdge G i).w < acc.minWeight) := by
        rintro ⟨hsum, -⟩
        rw [bool_sum_one_iff] at hsum
        exact hsum heq
      rw [if_neg hcond]
      exact ih (i + 1) acc
    · rw [if_neg hi]

theorem min_incident_loop_right (G : List WeightedEdge) (vT : List ℤ) :
    ∀ fuel i acc, RightInv G vT acc →
      RightInv G vT (min_incident_loop G vT fuel i acc) := by
  intro fuel
  induction fuel with
  | zero => intro i acc h; exact h
  | succ fuel ih =>
    intro i acc h
    simp only [min_incident_loop]
    by_cases hi : i < G.length
    · rw [if_pos hi]
      by_cases hcond : ((vtMem (getEdge G i).u vT).toNat +
          (vtMem (getEdge G i).v vT).toNat = 1) ∧
          (getEdge G i).w < acc.minWeight
      · rw [if_pos hcond]
        refine ih (i + 1) _ ?_
        refine ⟨?_, hi, ?_, rfl⟩
        · show (getEdge G i).w < intMax
          have h1 := h.1
          have h2 := hcond.2
          omega
        · exact (bool_sum_one_iff _ _).mp hcond.1
      · rw [if_neg hcond]
        exact ih (i + 1) acc h
    · rw [if_neg hi]
      exact h

theorem min_incident_loop_hit (G : List WeightedEdge) (vT : List ℤ) (j : ℕ)
    (hjl : j < G.length)
    (hb : vtMem (getEdge G j).u vT ≠ vtMem (getEdge G j).v vT)
    (hw : (getEdge G j).w < intMax) :
    ∀ fuel i acc, i ≤ j → G.length ≤ fuel + i →
      (acc = ⟨0, intMax, false⟩ ∨ RightInv G vT acc) →
      RightInv G vT (min_incident_loop G vT fuel i acc) := by
  intro fuel
  induction fuel with
  | zero => intro i acc h1 h2 h3; omega
  | succ fuel ih =>
    intro i acc hij hlen hacc
    have hi : i < G.length := by omega
    simp only [min_incident_loop]
    rw [if_pos hi]
    by_cases hcond : ((vtMem (getEdge G i).u vT).toNat +
        (vtMem (getEdge G i).v vT).toNat = 1) ∧
        (getEdge G i).w < acc.minWeight
    · -- the record is updated: from here on the right state persists
      rw [if_pos hcond]
      refine min_incident_loop_right G vT fuel (i + 1) _ ?_
      refine ⟨?_, hi, (bool_sum_one_iff _ _).mp hcond.1, rfl⟩
      show (getEdge G i).w < intMax
      rcases hacc with rfl | hr
      · exact hcond.2
      · have h1 := hr.1
        have h2 := hcond.2
        omega
    · rw [if_neg hcond]
      rcases Nat.eq_or_lt_of_le hij with rfl | hlt
      · -- at the witness index the guard can only fail because an
        -- admissible record already exists
        rcases hacc with rfl | hr
        · exfalso
          apply hcond
          exact ⟨(bool_sum_one_iff _ _).mpr hb, hw⟩
        · exact min_incident_loop_right G vT fuel (i + 1) acc hr
      · exact ih (i + 1) acc (by omega) (by omega) hacc

theorem min_incident_fresh (G : List WeightedEdge) (vT : List ℤ)
    (h : ∃ e ∈ G, vtMem e.u vT ≠ vtMem e.v vT ∧ e.w < intMax) :
    ∃ x, (min_incident G vT).2 = vT ++ [x] ∧ x ∉ vT ∧
      (vT.Nodup → (min_incident G vT).2.Nodup) := by
  obtain ⟨e, he, hb, hw⟩ := h
  obtain ⟨j, hjl, rfl⟩ := List.mem_iff_getElem.mp he
  have hgd : getEdge G j = G[j] := by
    rw [getEdge, List.getD_eq_getElem?_getD, List.getElem?_eq_getElem hjl]
    rfl
  rw [← hgd] at hb hw
  have hfin := min_incident_loop_hit G vT j hjl hb hw G.length 0
    ⟨0, intMax, false⟩ (by omega) (by omega) (Or.inl rfl)
  obtain ⟨hwlt, hidx, hbd, hum⟩ := hfin
  rw [min_incident]
  set acc := min_incident_loop G vT G.length 0 ⟨0, intMax, false⟩ with hacc
  cases hcase : vtMem (getEdge G acc.minIndex).u vT
  · -- u is outside the frontier, so u is appended
    have hru : acc.result_uMatch = false := by rw [hum, hcase]
    refine ⟨(getEdge G acc.minIndex).u, ?_, ?_, ?_⟩
    · rw [hru]
      rfl
    · intro hmem
      have : vtMem (getEdge G acc.minIndex).u vT = true := by
        rw [vtMem, decide_eq_true_iff]
        exact hmem
      rw [hcase] at this
      exact Bool.noConfusion this
    · intro hnd
      have hx : (getEdge G acc.minIndex).u ∉ vT := by
        intro hmem
        have : vtMem (getEdge G acc.minIndex).u vT = true := by
          rw [vtMem, decide_eq_true_iff]
          exact hmem
        rw [hcase] at this
        exact Bool.noConfusion this
      rw [hru]
      show (vT ++ [(getEdge G acc.minIndex).u]).Nodup
      simp [List.nodup_append, hnd, hx]
  · -- u is inside the frontier, so the other endpoint v is appended
    have hru : acc.result_uMatch = true := by rw [hum, hcase]
    have hvout : vtMem (getEdge G acc.minIndex).v vT = false := by
      rw [hcase] at hbd
      cases hv : vtMem (getEdge G acc.minIndex).v vT
      · rfl
      · rw [hv] at hbd
        exact absurd rfl hbd
    refine ⟨(getEdge G acc.minIndex).v, ?_, ?_, ?_⟩
    · rw [hru]
      rfl
    · intro hmem
      have : vtMem (getEdge G acc.minIndex).v vT = true := by
        rw [vtMem, decide_eq_true_iff]
        exact hmem
      rw [hvout] at this
      exact Bool.noConfusion this
    · intro hnd
      have hx : (getEdge G acc.minIndex).v ∉ vT := by
        intro hmem
        have : vtMem (getEdge G acc.minIndex).v vT = true := by
          rw [vtMem, decide_eq_true_iff]
          exact hmem
        rw [hvout] at this
        exact Bool.noConfusion this
      rw [hru]
      show (vT ++ [(getEdge G acc.minIndex).v]).Nodup
      simp [List.nodup_append, hnd, hx]

/-! ## Claim theorems -/

/-- Claim C1 (code bug).  The claim states that for every connected graph
with `vertexCount ≥ 1` the Prim loop ends with exactly `vertexCount - 1`
edges of minimum total weight.  On the 1-vertex connected input matrix
`[[5]]` (a self-loop of weight 5), the `do`-while loop body runs at least
once: `T` receives one edge (`vertexCount - 1 = 0` expected) and
`totalWeight` becomes 5 instead of 0. -/
theorem claimC1_single_vertex_run :
    create_graph 1 M_selfLoop = [⟨0, 0, 5⟩] ∧
    (spanning_tree 1 M_selfLoop 1).T = [⟨0, 0, 5⟩] ∧
    (spanning_tree 1 M_selfLoop 1).T.length = 1 ∧
    (spanning_tree 1 M_selfLoop 1).total = 5 := by
  decide

/-- Claim C2 (confirmed).  For `n > m ≥ 1` and enough fuel, a full run of
`make_combinations` prints exactly `C(n, m)` combinations; each printed
combination is a strictly increasing list of `m` values below `n`, and
each `m`-subset of `[0, n)` is printed exactly once. -/
theorem claimC2_enumerator_bijection (n m fuel : ℕ) (L : List (List ℕ))
    (h1 : 1 ≤ m) (h2 : m < n) (hfuel : Nat.choose n m ≤ fuel + 1)
    (hL : make_combinations n m fuel = some L) :
    L.length = Nat.choose n m ∧
    (∀ c ∈ L, c.length = m ∧ List.Chain' (· < ·) c ∧ ∀ x ∈ c, x < n) ∧
    ∀ s ∈ (Finset.range n).powersetCard m, (L.map List.toFinset).count s = 1 := by
  have hg0 : goodIdx n m (initIdx n m) := goodIdx_initIdx h2
  have hr0 : rankF m (initIdx n m) + 1 = Nat.choose n m := rankF_initIdx h1 h2
  have hout := make_combinations_out h1 h2 hfuel hL
  subst hout
  refine ⟨?_, ?_, ?_⟩
  · rw [List.length_cons, predChainF_length]
    omega
  · intro c hc
    rcases List.mem_cons.mp hc with rfl | hc
    · exact emitC_props hg0
    · obtain ⟨⟨i2, hg2, rfl⟩, -⟩ := predChainF_mem _ _ hg0 rfl c hc
      exact emitC_props hg2
  · apply count_one_of_all
    · rw [List.length_cons, predChainF_length]
      omega
    · intro c hc
      rcases List.mem_cons.mp hc with rfl | hc
      · exact ⟨initIdx n m, hg0, rfl⟩
      · exact (predChainF_mem _ _ hg0 rfl c hc).1
    · rw [List.nodup_cons]
      refine ⟨?_, predChainF_nodup _ _ hg0 rfl⟩
      intro hmem
      have := (predChainF_mem _ _ hg0 rfl _ hmem).2
      rw [rankL_emitC] at this
      omega

/-- Witness for C2 at `n = 2`, `m = 1`. -/
theorem claimC2_witness :
    ([[1], [0]] : List (List ℕ)).length = Nat.choose 2 1 ∧
    (∀ c ∈ ([[1], [0]] : List (List ℕ)),
      c.length = 1 ∧ List.Chain' (· < ·) c ∧ ∀ x ∈ c, x < 2) ∧
    ∀ s ∈ (Finset.range 2).powersetCard 1,
      (([[1], [0]] : List (List ℕ)).map List.toFinset).count s = 1 :=
  claimC2_enumerator_bijection 2 1 5 [[1], [0]] (by decide) (by decide)
    (by decide) (by rfl)

/-- Claim C3 (code bug).  The claim states that every matrix emitted by
`write_graph` has exactly `edgeCount` ones above the diagonal.  For the
combination `[0]` produced by `make_graphs 3 1` the edge-set loop reads
`indices[1]` although the array has length 1 (out of bounds in C); if the
unspecified value read there is 1 (oracle `gOne`), the emitted matrix is
symmetric with zero diagonal but carries two ones above the diagonal
instead of one. -/
theorem claimC3_write_graph_oob_matrix :
    make_graphs 3 1 4 = some [[2], [1], [0]] ∧
    triangle_number (3 - 1) = 3 ∧
    (edgeSet [0] gOne 3).count true = 2 ∧
    adjMatrixM (edgeSet [0] gOne 3) 3 1 0 = true ∧
    adjMatrixM (edgeSet [0] gOne 3) 3 0 1 = true ∧
    adjMatrixM (edgeSet [0] gOne 3) 3 2 0 = true ∧
    adjMatrixM (edgeSet [0] gOne 3) 3 0 2 = true ∧
    adjMatrixM (edgeSet [0] gOne 3) 3 2 1 = false ∧
    adjMatrixM (edgeSet [0] gOne 3) 3 1 2 = false ∧
    adjMatrixM (edgeSet [0] gOne 3) 3 0 0 = false ∧
    adjMatrixM (edgeSet [0] gOne 3) 3 1 1 = false ∧
    adjMatrixM (edgeSet [0] gOne 3) 3 2 2 = false := by
  decide

/-- Claim C4 (confirmed).  For `n > m ≥ 1` and enough fuel, the first
printed combination is `[n-m, ..., n-1]`, the last is `[0, ..., m-1]`,
and consecutive printed combinations strictly decrease in
colexicographic order. -/
theorem claimC4_enumeration_order (n m fuel : ℕ) (L : List (List ℕ))
    (h1 : 1 ≤ m) (h2 : m < n) (hfuel : Nat.choose n m ≤ fuel + 1)
    (hL : make_combinations n m fuel = some L) :
    L.head? = some (List.range' (n - m) m) ∧
    L.getLast? = some (List.range m) ∧
    List.Chain' (fun a b => colexLt b a) L := by
  have hg0 : goodIdx n m (initIdx n m) := goodIdx_initIdx h2
  have hr0 : rankF m (initIdx n m) + 1 = Nat.choose n m := rankF_initIdx h1 h2
  have hch2 : 2 ≤ Nat.choose n m := choose_two_le h1 h2
  have hout := make_combinations_out h1 h2 hfuel hL
  subst hout
  refine ⟨?_, ?_, ?_⟩
  · rw [List.head?_cons, emitC_initIdx]
  · have hne : predChainF m (initIdx n m) (rankF m (initIdx n m)) ≠ [] := by
      intro h
      have hlen := predChainF_length m (rankF m (initIdx n m)) (initIdx n m)
      rw [h] at hlen
      simp at hlen
      omega
    rw [lastOfCons _ _ hne]
    exact predChainF_getLast _ _ hg0 rfl (by omega)
  · exact predChainF_chain _ _ hg0 rfl

/-- Witness for C4 at `n = 3`, `m = 2`. -/
theorem claimC4_witness :
    ([[1, 2], [0, 2], [0, 1]] : List (List ℕ)).head? = some (List.range' 1 2) ∧
    ([[1, 2], [0, 2], [0, 1]] : List (List ℕ)).getLast? = some (List.range 2) ∧
    List.Chain' (fun a b => colexLt b a) ([[1, 2], [0, 2], [0, 1]] : List (List ℕ)) :=
  claimC4_enumeration_order 3 2 10 [[1, 2], [0, 2], [0, 1]] (by decide) (by decide)
    (by decide) (by rfl)

/-- Claim C5, counterexample.  At `n = 2`, `m = 0` the precondition
`m ≥ 1` is violated, yet no `InvalidCombinationSize` condition is
reported: the source only checks `input_count <= combination_count`, so
the call proceeds into the loop instead of failing. -/
theorem claimC5_counterexample : (make_combinations 2 0 2).isSome = true := by
  rfl

/-- Claim C5 (corrected).  The error is reported, with no combination
printed, exactly when `n ≤ m`; the `m < 1` half of the claimed
precondition is not checked by the code. -/
theorem claimC5_error_iff (n m fuel : ℕ) :
    make_combinations n m fuel = none ↔ n ≤ m := by
  rw [make_combinations]
  by_cases h : n ≤ m
  · rw [if_pos h]
    simp [h]
  · rw [if_neg h]
    simp [h]

/-- Claim C6 (confirmed).  If no edge of a non-empty `G` has exactly one
endpoint in `vT`, `min_incident` leaves its record untouched: it returns
index 0 and still appends `G[0].getU()` (an endpoint of edge 0) to `vT`. -/
theorem claimC6_no_boundary_default (G : List WeightedEdge) (vT : List ℤ)
    (hne : G ≠ []) (hnb : ∀ e ∈ G, vtMem e.u vT = vtMem e.v vT) :
    min_incident G vT = (0, vT ++ [(getEdge G 0).u]) := by
  have _hne := hne
  rw [min_incident, min_incident_no_update G vT hnb]
  rfl

/-- Witness for C6: a single self-loop edge and an empty frontier. -/
theorem claimC6_witness :
    min_incident [⟨0, 0, 1⟩] [] = (0, [] ++ [(getEdge [⟨0, 0, 1⟩] 0).u]) :=
  claimC6_no_boundary_default [⟨0, 0, 1⟩] [] (by decide) (by decide)

/-- Claim C7, counterexample.  `create_graph` keeps the entry at row 0,
column 1 of this matrix (column-index > row-index) even though every
entry with row-index ≥ column-index is zero, so the claim's
"row-index ≥ column-index" scan description is wrong: the code stores
one edge where the claim predicts none. -/
theorem claimC7_counterexample :
    create_graph 2 M_upperOnly = [⟨1, 0, 5⟩] ∧
    M_upperOnly 0 0 = 0 ∧ M_upperOnly 1 0 = 0 ∧ M_upperOnly 1 1 = 0 := by
  decide

/-- Claim C7 (corrected).  `create_graph` stores exactly one `WeightedEdge`
per matrix entry whose column-index `i` is ≥ its row-index `j` and whose
value is non-zero — the entry at row `j`, column `i` becomes
`WeightedEdge(i, j, M j i)` — and no others, each exactly once. -/
theorem claimC7_upper_scan (V : ℕ) (M : ℕ → ℕ → ℤ) :
    (create_graph V M).Nodup ∧
      ∀ e, e ∈ create_graph V M ↔
        ∃ j i, j < V ∧ i < V ∧ j ≤ i ∧ M j i ≠ 0 ∧
          e = ⟨(i : ℤ), (j : ℤ), M j i⟩ :=
  ⟨create_graph_nodup V M, fun e => create_graph_mem V M e⟩

/-- Claim C8 (code bug).  The claim states every read `indices[k]` of the
edge-set loop has `k < EDGE_COUNT`.  For the array `[0]` produced by
`make_graphs 3 1` (`EDGE_COUNT = 1`, `EDGES = 3`), the loop's cursor
already equals 1 at iteration `i = 1 < 3`, so both reads of that
iteration are out of bounds. -/
theorem claimC8_oob_read :
    make_graphs 3 1 4 = some [[2], [1], [0]] ∧
    ([0] : List ℕ).length = 1 ∧
    1 < triangle_number (3 - 1) ∧
    edgeSetK [0] gZero 1 = 1 ∧
    ¬ edgeSetK [0] gZero 1 < ([0] : List ℕ).length := by
  decide

/-- Claim C9, counterexample.  With the single boundary edge
`(1, 0)` of weight `INT_MAX = 2147483647` and frontier `[1]`, the strict
`<` against the `INT_MAX` sentinel never records the edge, so
`min_incident` falls back to index 0 with `result_uMatch = false` and
appends `u = 1`, which is already in `vT`: the frontier becomes `[1, 1]`. -/
theorem claimC9_counterexample :
    vtMem (1 : ℤ) [1] = true ∧ vtMem (0 : ℤ) [1] = false ∧
    (⟨1, 0, 2147483647⟩ : WeightedEdge).w = intMax ∧
    (min_incident [⟨1, 0, 2147483647⟩] [1]).2 = [1, 1] ∧
    ¬ (min_incident [⟨1, 0, 2147483647⟩] [1]).2.Nodup := by
  decide

/-- Claim C9 (corrected).  Whenever some edge of `G` has exactly one
endpoint in `vT` and weight strictly below `INT_MAX`, the vertex that
`min_incident` appends is the non-frontier endpoint of the recorded
boundary edge; in particular a duplicate-free `vT` stays duplicate-free. -/
theorem claimC9_fresh_append (G : List WeightedEdge) (vT : List ℤ)
    (h : ∃ e ∈ G, vtMem e.u vT ≠ vtMem e.v vT ∧ e.w < intMax) :
    ∃ x, (min_incident G vT).2 = vT ++ [x] ∧ x ∉ vT ∧
      (vT.Nodup → (min_incident G vT).2.Nodup) :=
  min_incident_fresh G vT h

/-- Witness for C9: boundary edge `(1, 0)` of weight 5, frontier `[1]`. -/
theorem claimC9_witness :
    ∃ x, (min_incident [⟨1, 0, 5⟩] [(1 : ℤ)]).2 = [(1 : ℤ)] ++ [x] ∧
      x ∉ [(1 : ℤ)] ∧
      (([(1 : ℤ)] : List ℤ).Nodup → (min_incident [⟨1, 0, 5⟩] [(1 : ℤ)]).2.Nodup) :=
  claimC9_fresh_append [⟨1, 0, 5⟩] [1] ⟨⟨1, 0, 5⟩, by decide, by decide, by decide⟩

/-- Claim C10 (confirmed).  Every edge stored by `create_graph` satisfies
`getV() ≤ getU()`: it comes from an entry at row `j`, column `i` with
`j ≤ i`, stored as `u = i` (the column) and `v = j` (the row). -/
theorem claimC10_canonical_endpoints (V : ℕ) (M : ℕ → ℕ → ℤ)
    (e : WeightedEdge) (he : e ∈ create_graph V M) :
    e.v ≤ e.u ∧ ∃ j i, j ≤ i ∧ j < V ∧ i < V ∧ M j i ≠ 0 ∧
      e = ⟨(i : ℤ), (j : ℤ), M j i⟩ := by
  obtain ⟨j, i, hj, hi, hji, hM, rfl⟩ := (create_graph_mem V M e).mp he
  refine ⟨?_, j, i, hji, hj, hi, hM, rfl⟩
  show (j : ℤ) ≤ (i : ℤ)
  exact_mod_cast hji

/-- Witness for C10 on the matrix `M_upperOnly`. -/
theorem claimC10_witness :
    ((⟨1, 0, 5⟩ : WeightedEdge) ∈ create_graph 2 M_upperOnly) ∧
    ((⟨1, 0, 5⟩ : WeightedEdge).v ≤ (⟨1, 0, 5⟩ : WeightedEdge).u ∧
      ∃ j i, j ≤ i ∧ j < 2 ∧ i < 2 ∧ M_upperOnly j i ≠ 0 ∧
        (⟨1, 0, 5⟩ : WeightedEdge) = ⟨(i : ℤ), (j : ℤ), M_upperOnly j i⟩) :=
  ⟨by decide, claimC10_canonical_endpoints 2 M_upperOnly _ (by decide)⟩

end GraphWorks
